import Mathlib

/-!
Verification of the vote-aggregation / feed-buffering core of the
`nostr_karma` client (src/test.js, with src/main.js as the earlier
variant).  The JavaScript functions are embedded shallowly: JS objects
and `Map`s become insertion-ordered association lists, `Number(…)` on
tag values becomes an `Option Int` parser, promise-based relay
collection becomes an `Except` over the subscription outcome, and the
DOM-facing pieces (toasts, pills, buttons) are dropped because they
carry no state the specification talks about.
-/

set_option autoImplicit false

namespace Nostr

/-- Nostr event as the karma code sees it (src/test.js).  `created_at`
is optional because the code defends with `ev.created_at || 0`;
`pubkey` and `id` use the empty string for the JS falsy case. -/
structure NEvent where
  id : String
  pubkey : String
  created_at : Option Int
  kind : Int
  tags : List (List String)
  content : String
deriving DecidableEq, Repr

/-- Timestamp with the JS default: `ev.created_at || 0`. -/
def caD (ev : NEvent) : Int := ev.created_at.getD 0

/-- Insertion-ordered association list read: first entry whose key
matches, as JS `Map.get` / object property read. -/
def assocGet {α : Type} (m : List (String × α)) (k : String) : Option α :=
  match m with
  | [] => none
  | p :: rest => if p.1 = k then some p.2 else assocGet rest k

/-- Insertion-ordered association list write: JS `Map.set` / object
property assignment overwrites an existing key in place and otherwise
appends, preserving iteration order. -/
def assocSet {α : Type} (m : List (String × α)) (k : String) (v : α) : List (String × α) :=
  match m with
  | [] => [(k, v)]
  | p :: rest => if p.1 = k then (k, v) :: rest else p :: assocSet rest k v

/-- Keys of an association list in iteration order. -/
def assocKeys {α : Type} (m : List (String × α)) : List String := m.map (·.1)

/-- Digits-only decimal parse: `some n` when the character list is
nonempty and all decimal digits. -/
def parseDigits (cs : List Char) : Option Nat :=
  if cs.isEmpty then none
  else cs.foldl
    (fun acc c =>
      match acc with
      | none => none
      | some n => if c.isDigit then some (n * 10 + (c.toNat - '0'.toNat)) else none)
    (some 0)

/-- Model of JavaScript `Number(string)` on the fragment the karma code
can observe.  `Number` trims whitespace, maps the empty string to `0`,
and parses an optionally signed decimal literal; every other string is
modelled as `none`.  `none` stands both for `NaN` and for the
non-integer results (`"1.5"`, exponents, hex) — `computeScore` only
tests membership in `{1, -1, 0}`, so all of those are rejected alike.
(The one fragment not covered: fractional literals with integral value
such as `"1.0"`, which real `Number` accepts; no claim touches them.) -/
def jsNumber (s : String) : Option Int :=
  let cs := ((s.toList.dropWhile Char.isWhitespace).reverse.dropWhile Char.isWhitespace).reverse
  match cs with
  | [] => some 0
  | '+' :: rest => (parseDigits rest).map Int.ofNat
  | '-' :: rest => (parseDigits rest).map (fun n => -(Int.ofNat n))
  | _ => (parseDigits cs).map Int.ofNat

/-- First `v` tag of an event: `ev.tags.find(t => t[0] === 'v')`
(src/test.js:287).  `t[0]` on an empty array is `undefined`, which the
strict equality rejects, hence `head? == some "v"`. -/
def findVTag (tags : List (List String)) : Option (List String) :=
  tags.find? (fun t => t.head? == some "v")

/-- Sign extraction of `computeScore` (src/test.js:287-292): find the
`v` tag, read its second entry (`Number(undefined)` is `NaN`, hence
`none` when absent), convert with `Number`, and keep the result only
when it lies in `{1, -1, 0}`. -/
def evSign (ev : NEvent) : Option Int :=
  match findVTag ev.tags with
  | none => none
  | some signTag =>
    match signTag.get? 1 with
    | none => none
    | some s =>
      match jsNumber s with
      | none => none
      | some n => if n = 1 ∨ n = -1 ∨ n = 0 then some n else none

/-- An event contributes to the score iff its sign extraction succeeds
and its `pubkey` is truthy (src/test.js:294-295). -/
def counted (ev : NEvent) : Bool := (evSign ev).isSome && ev.pubkey != ""

/-- Loop body of `computeScore` (src/test.js:286-302): the running
`latestByVoter` map keeps, per voter, the highest-timestamp entry seen
so far; the comparison `ts > prev.ts` is strict, so on an equal
timestamp the earlier entry survives. -/
def voteStep (m : List (String × (Int × Int))) (ev : NEvent) : List (String × (Int × Int)) :=
  match evSign ev with
  | none => m
  | some sign =>
    if ev.pubkey = "" then m
    else
      match assocGet m ev.pubkey with
      | none => assocSet m ev.pubkey (caD ev, sign)
      | some prev => if prev.1 < caD ev then assocSet m ev.pubkey (caD ev, sign) else m

/-- The `latestByVoter` map built by `computeScore` (src/test.js:284-302). -/
def latestByVoter (l : List NEvent) : List (String × (Int × Int)) :=
  l.foldl voteStep []

/-- `computeScore` (src/test.js:283-309): sum of the retained signs. -/
def computeScore (l : List NEvent) : Int :=
  (latestByVoter l).foldl (fun score p => score + p.2.2) 0

/-! Concrete events used in closed statements. -/

/-- Well-formed +1 vote from alice at timestamp 10. -/
def votePlusAt10 : NEvent :=
  { id := "a1", pubkey := "alice", created_at := some 10, kind := 30010,
    tags := [["p", "bob"], ["e", "post1"], ["v", "1"]], content := "" }

/-- Well-formed -1 vote from alice at timestamp 20. -/
def voteMinusAt20 : NEvent :=
  { id := "a2", pubkey := "alice", created_at := some 20, kind := 30010,
    tags := [["p", "bob"], ["e", "post1"], ["v", "-1"]], content := "" }

/-- Well-formed +1 vote from alice at timestamp 10 (tie pair, id t1). -/
def tiePlus : NEvent :=
  { id := "t1", pubkey := "alice", created_at := some 10, kind := 30010,
    tags := [["p", "bob"], ["e", "post1"], ["v", "1"]], content := "" }

/-- Well-formed -1 vote from alice at timestamp 10 (tie pair, id t2). -/
def tieMinus : NEvent :=
  { id := "t2", pubkey := "alice", created_at := some 10, kind := 30010,
    tags := [["p", "bob"], ["e", "post1"], ["v", "-1"]], content := "" }

/-- Vote event carrying only a `v` tag: no `p` tag and no `e` tag. -/
def voteNoPE : NEvent :=
  { id := "x1", pubkey := "carol", created_at := some 5, kind := 30010,
    tags := [["v", "1"]], content := "" }

/-- Event with an out-of-domain `v` value. -/
def voteBadV : NEvent :=
  { id := "x2", pubkey := "carol", created_at := some 5, kind := 30010,
    tags := [["p", "bob"], ["e", "post1"], ["v", "2"]], content := "" }

/-! Feed buffering (src/test.js:163-237). -/

/-- The slice of `NostrClient` state the buffering paths touch:
`this.seenIds` (a JS `Set`, insertion-ordered, modelled as a list of
distinct ids), `this.buffer`, and the rendered feed (top of the DOM
feed column = head of the list). -/
structure ClientState where
  seenIds : List String
  buffer : List NEvent
  feed : List NEvent
deriving DecidableEq, Repr

/-- Client state at session start (src/test.js:44-45). -/
def emptyClientState : ClientState := { seenIds := [], buffer := [], feed := [] }

/-- `bufferIncoming` (src/test.js:177-186): drop the event when its id
is falsy or already seen, otherwise record the id and append the event
to the buffer.  The "Show new posts (n)" pill update is DOM-only. -/
def bufferIncoming (st : ClientState) (ev : NEvent) : ClientState :=
  if ev.id = "" ∨ ev.id ∈ st.seenIds then st
  else { st with seenIds := st.seenIds ++ [ev.id], buffer := st.buffer ++ [ev] }

/-- Insert into a descending-`created_at` list, passing over every
element not strictly older; equal timestamps therefore keep their
relative order, exactly the stable sort ECMAScript guarantees for
`buffer.sort((a, b) => (b.created_at || 0) - (a.created_at || 0))`. -/
def insertDesc (ev : NEvent) : List NEvent → List NEvent
  | [] => [ev]
  | x :: xs => if caD x < caD ev then ev :: x :: xs else x :: insertDesc ev xs

/-- Stable descending sort by `created_at || 0` (src/test.js:191). -/
def sortByCreatedAtDesc (l : List NEvent) : List NEvent :=
  l.foldl (fun acc ev => insertDesc ev acc) []

/-- Effect of one `renderNote(ev, { toTop: true })` call on the feed
(src/test.js:208-237): insert at the top, then trim the feed to 200
notes from the bottom. -/
def renderNote (feed : List NEvent) (ev : NEvent) : List NEvent :=
  (ev :: feed).take 200

/-- `flushBufferToFeed` (src/test.js:188-198).  Returns the sequence of
`renderNote` calls (the emission order) together with the new state: on
an empty buffer it returns immediately; otherwise it sorts the buffer
newest-first, renders each event in that order to the top of the feed,
and empties the buffer.  `seenIds` is untouched. -/
def flushBufferToFeed (st : ClientState) : List NEvent × ClientState :=
  if st.buffer.isEmpty then ([], st)
  else
    let sorted := sortByCreatedAtDesc st.buffer
    (sorted,
     { st with
        buffer := [],
        feed := sorted.foldl renderNote st.feed })

/-- Feed-state effect of `publishNote` (src/test.js:342-367) once the
content and connectivity guards pass: the freshly signed note is
rendered optimistically at the top of the feed.  Neither `seenIds` nor
`buffer` is touched — the note's id is not recorded anywhere — and the
relay fan-out `Promise.allSettled(...)` never rejects, so the success
path always runs. -/
def publishNote (st : ClientState) (ev : NEvent) : ClientState :=
  { st with feed := renderNote st.feed ev }

/-! Proof-of-work miner (src/test.js:17-31). -/

/-- Unsigned event payload handed to `finishEvent`. -/
structure Unsigned where
  kind : Int
  created_at : Option Int
  tags : List (List String)
  content : String
deriving DecidableEq, Repr

/-- Payload with the mining nonce appended:
`{ ...unsigned, tags: [...(unsigned.tags || []), ['nonce', String(nonce)]] }`. -/
def withNonce (u : Unsigned) (nonce : Nat) : Unsigned :=
  { u with tags := u.tags ++ [["nonce", toString nonce]] }

/-- Required hex zero run: `'0'.repeat(nibbles)`. -/
def zeroTarget (nibbles : Nat) : String := String.mk (List.replicate nibbles '0')

/-- The `while (nonce < maxIters)` loop of `mineAndFinish`, with
`fuel = maxIters - nonce` remaining iterations.  `finish` stands for
the external `finishEvent(·, sk)` of nostr-tools (spec §2: consumed,
not reimplemented), with the secret key fixed.  When the fuel runs out
the original payload is signed without a nonce tag. -/
def mineLoop (finish : Unsigned → NEvent) (u : Unsigned) (nibbles nonce fuel : Nat) : NEvent :=
  match fuel with
  | 0 => finish u
  | fuel' + 1 =>
    let ev := finish (withNonce u nonce)
    if nibbles == 0 || ev.id.startsWith (zeroTarget nibbles) then ev
    else mineLoop finish u nibbles (nonce + 1) fuel'

/-- `mineAndFinish` (src/test.js:17-31).  `powBits` and `maxIters` are
naturals, so `Math.max(0, Math.floor(powBits / 4))` is plain `/ 4`
(the repo only calls it with 8, the spec's claim with 0). -/
def mineAndFinish (finish : Unsigned → NEvent) (u : Unsigned) (powBits maxIters : Nat) : NEvent :=
  mineLoop finish u (powBits / 4) 0 maxIters

/-- Instrumented mirror of `mineLoop` counting `finishEvent`
invocations (each loop iteration signs once; the fallback after
exhaustion signs once). -/
def mineLoopCalls (finish : Unsigned → NEvent) (u : Unsigned) (nibbles nonce fuel : Nat) : Nat :=
  match fuel with
  | 0 => 1
  | fuel' + 1 =>
    let ev := finish (withNonce u nonce)
    if nibbles == 0 || ev.id.startsWith (zeroTarget nibbles) then 1
    else 1 + mineLoopCalls finish u nibbles (nonce + 1) fuel'

/-- Number of signing calls a `mineAndFinish` invocation performs. -/
def mineAndFinishCalls (finish : Unsigned → NEvent) (u : Unsigned) (powBits maxIters : Nat) : Nat :=
  mineLoopCalls finish u (powBits / 4) 0 maxIters

/-- Stand-in for the external `finishEvent`: like the real signer it
returns an event carrying the payload's fields (in particular its
tags) with a derived id attached.  Used to instantiate closed
statements about the miner. -/
def tagKeepingSigner : Unsigned → NEvent :=
  fun u =>
    { id := "deadbeef", pubkey := "self", created_at := u.created_at,
      kind := u.kind, tags := u.tags, content := u.content }

/-- Unsigned karma-vote payload with no tags yet. -/
def plainUnsigned : Unsigned :=
  { kind := 30010, created_at := some 0, tags := [], content := "" }

/-! Relay collection (src/test.js:253-280). -/

/-- `collectFromRelay` (src/test.js:268-280), shallowly embedded over
the subscription outcome.  `Except.ok emitted` is a subscription that
succeeded and delivered `emitted` (in order) before the timeout fired;
the promise then resolves with `Object.values(out)` where
`out[ev.id] = ev` — ids are 64-hex strings, hence plain string keys in
insertion order, i.e. `assocSet`.  `Except.error` is `relay.sub`
throwing synchronously inside the executor, which rejects the promise:
the rejection propagates to the caller (only the late `unsub()` is
wrapped in try/catch).  Real elapsed time is outside the model. -/
def dedupById (emitted : List NEvent) : List NEvent :=
  (emitted.foldl (fun m ev => assocSet m ev.id ev) []).map (·.2)

/-- See `dedupById`; this is the promise `collectFromRelay` returns. -/
def collectFromRelay (subOutcome : Except String (List NEvent)) : Except String (List NEvent) :=
  match subOutcome with
  | Except.error e => Except.error e
  | Except.ok emitted => Except.ok (dedupById emitted)

/-- Loop body of `fetchVotesForPost` (src/test.js:257-264): `await`
one relay's collection inside try/catch — a rejected collection is
logged (`console.warn`) and contributes nothing — and push the events
onto the flat `results` array. -/
def fetchStep (results : List NEvent) (r : Except String (List NEvent)) : List NEvent :=
  match collectFromRelay r with
  | Except.ok events => results ++ events
  | Except.error _ => results

/-- `fetchVotesForPost` (src/test.js:253-266): walk the relays in
order, applying `fetchStep` to each, starting from an empty
`results` array. -/
def fetchVotesForPost (relayOutcomes : List (Except String (List NEvent))) : List NEvent :=
  relayOutcomes.foldl fetchStep []

/-- Per-relay contribution as the aggregation sees it (spec-side
helper for stating what the merge concatenates). -/
def relayContribution (r : Except String (List NEvent)) : List NEvent :=
  match collectFromRelay r with
  | Except.ok events => events
  | Except.error _ => []

/-- Vote event used in relay-collection statements. -/
def echoedVote : NEvent :=
  { id := "dup1", pubkey := "dave", created_at := some 7, kind := 30010,
    tags := [["p", "bob"], ["e", "post1"], ["v", "1"]], content := "" }

/-! Vote sending (src/test.js:370-420). -/

/-- Observable outcome of one `sendVote` call: the computed final
sign, the vote ledger (`this.localVotes`) afterwards, and whether the
catch-branch failure toast (`'Vote failed'`) fired. -/
structure VoteOutcome where
  finalSign : Int
  ledger : List (String × Int)
  failureSignal : Bool
deriving DecidableEq, Repr

/-- Ledger read `this.localVotes[eventIdHex] || 0` (src/test.js:379):
an absent entry reads as 0, and a stored 0 likewise. -/
def ledgerGet (ledger : List (String × Int)) (eid : String) : Int :=
  (assocGet ledger eid).getD 0

/-- `Promise.allSettled` never rejects: it resolves with the list of
per-promise outcomes whatever they are.  (Relays that are not
connected contribute the non-promise `false`, which `allSettled`
also treats as fulfilled.) -/
def allSettled (rs : List (Except String Unit)) : Except String (List (Except String Unit)) :=
  Except.ok rs

/-- `sendVote` (src/test.js:370-420), state part.  The toggle computes
`finalSign` from the ledger (src/test.js:379-383); the vote event is
then mined and published to every connected relay with
`await Promise.allSettled(...)` inside try/catch.  `publishOutcomes`
are the per-relay publish results.  Because `allSettled` resolves
regardless, the success path — ledger write and success toast — runs
whatever the relays did; the catch branch would fire only if the
awaited expression itself threw. -/
def sendVote (ledger : List (String × Int)) (eid : String) (sign : Int)
    (publishOutcomes : List (Except String Unit)) : VoteOutcome :=
  let current := ledgerGet ledger eid
  let finalSign := if current = sign then 0 else sign
  match allSettled publishOutcomes with
  | Except.ok _ =>
    { finalSign := finalSign, ledger := assocSet ledger eid finalSign, failureSignal := false }
  | Except.error _ =>
    { finalSign := finalSign, ledger := ledger, failureSignal := true }

/-! Concrete feed events for the buffering statements. -/

/-- Plain text note, id n1. -/
def plainNote : NEvent :=
  { id := "n1", pubkey := "erin", created_at := some 50, kind := 1,
    tags := [], content := "hello" }

/-- Note with `created_at` 100, id f100. -/
def noteAt100 : NEvent :=
  { id := "f100", pubkey := "erin", created_at := some 100, kind := 1,
    tags := [], content := "" }

/-- Note with `created_at` 300, id f300. -/
def noteAt300 : NEvent :=
  { id := "f300", pubkey := "erin", created_at := some 300, kind := 1,
    tags := [], content := "" }

/-- Note with `created_at` 200, id f200. -/
def noteAt200 : NEvent :=
  { id := "f200", pubkey := "erin", created_at := some 200, kind := 1,
    tags := [], content := "" }

/-- Tie pair for the flush ordering: same timestamp, ids g1 and g2. -/
def tieNoteA : NEvent :=
  { id := "g1", pubkey := "erin", created_at := some 100, kind := 1,
    tags := [], content := "" }

/-- Second element of the flush tie pair. -/
def tieNoteB : NEvent :=
  { id := "g2", pubkey := "erin", created_at := some 100, kind := 1,
    tags := [], content := "" }

/-! Association-list lemmas. -/

theorem assocGet_assocSet_self {α : Type} (m : List (String × α)) (k : String) (v : α) :
    assocGet (assocSet m k v) k = some v := by
  induction m with
  | nil => simp [assocSet, assocGet]
  | cons p rest ih =>
    by_cases h : p.1 = k
    · simp [assocSet, assocGet, h]
    · simp [assocSet, assocGet, h, ih]

theorem assocGet_assocSet_ne {α : Type} (m : List (String × α)) (k : String) (v : α)
    (j : String) (h : j ≠ k) : assocGet (assocSet m k v) j = assocGet m j := by
  induction m with
  | nil => simp [assocSet, assocGet, Ne.symm h]
  | cons p rest ih =>
    obtain ⟨k', v'⟩ := p
    by_cases hp : k' = k
    · subst hp
      simp [assocSet, assocGet, Ne.symm h]
    · by_cases hj : k' = j
      · simp [assocSet, assocGet, hp, hj, h]
      · simp [assocSet, assocGet, hp, hj, ih]

theorem mem_assocKeys_assocSet {α : Type} (m : List (String × α)) (k : String) (v : α)
    (j : String) : j ∈ assocKeys (assocSet m k v) ↔ j ∈ assocKeys m ∨ j = k := by
  induction m with
  | nil => simp [assocSet, assocKeys]
  | cons p rest ih =>
    obtain ⟨k', v'⟩ := p
    by_cases hp : k' = k
    · subst hp
      have hset : assocSet ((k', v') :: rest) k' v = (k', v) :: rest := by
        simp [assocSet]
      rw [hset]
      simp only [assocKeys, List.map_cons, List.mem_cons]
      tauto
    · have hset : assocSet ((k', v') :: rest) k v = (k', v') :: assocSet rest k v := by
        simp [assocSet, hp]
      rw [hset]
      simp only [assocKeys, List.map_cons, List.mem_cons]
      simp only [assocKeys] at ih
      tauto

theorem assocKeys_nodup_assocSet {α : Type} (m : List (String × α)) (k : String) (v : α)
    (h : (assocKeys m).Nodup) : (assocKeys (assocSet m k v)).Nodup := by
  induction m with
  | nil => simp [assocSet, assocKeys]
  | cons p rest ih =>
    obtain ⟨k', v'⟩ := p
    simp only [assocKeys, List.map_cons, List.nodup_cons] at h
    by_cases hp : k' = k
    · subst hp
      have hset : assocSet ((k', v') :: rest) k' v = (k', v) :: rest := by
        simp [assocSet]
      rw [hset]
      simp only [assocKeys, List.map_cons, List.nodup_cons]
      exact h
    · have hset : assocSet ((k', v') :: rest) k v = (k', v') :: assocSet rest k v := by
        simp [assocSet, hp]
      rw [hset]
      simp only [assocKeys, List.map_cons, List.nodup_cons]
      refine ⟨?_, ih h.2⟩
      intro hmem
      rcases (mem_assocKeys_assocSet rest k v k').mp hmem with hin | heq
      · exact h.1 hin
      · exact hp heq

theorem assocGet_isSome_iff {α : Type} (m : List (String × α)) (k : String) :
    (assocGet m k).isSome ↔ k ∈ assocKeys m := by
  induction m with
  | nil => simp [assocGet, assocKeys]
  | cons p rest ih =>
    obtain ⟨k', v'⟩ := p
    by_cases hp : k' = k
    · simp [assocGet, assocKeys, hp]
    · simp [assocGet, assocKeys, hp, ih, Ne.symm hp]

theorem mem_iff_assocGet {α : Type} (m : List (String × α)) (h : (assocKeys m).Nodup)
    (k : String) (v : α) : (k, v) ∈ m ↔ assocGet m k = some v := by
  induction m with
  | nil => simp [assocGet]
  | cons p rest ih =>
    obtain ⟨k', v'⟩ := p
    simp only [assocKeys, List.map_cons, List.nodup_cons] at h
    by_cases hp : k' = k
    · subst hp
      constructor
      · intro hm
        rcases List.mem_cons.mp hm with hm | hm
        · have hv : v = v' := (Prod.ext_iff.mp hm).2
          subst hv
          simp [assocGet]
        · exact absurd (List.mem_map_of_mem (fun q => q.1) hm) h.1
      · intro hv
        have hv' : v' = v := by simpa [assocGet] using hv
        subst hv'
        exact List.mem_cons_self _ _
    · have hgk : assocGet ((k', v') :: rest) k = assocGet rest k := by
        simp [assocGet, hp]
      rw [hgk, ← ih h.2]
      constructor
      · intro hm
        rcases List.mem_cons.mp hm with hm | hm
        · exact absurd (Prod.ext_iff.mp hm).1.symm hp
        · exact hm
      · intro hm
        exact List.mem_cons_of_mem _ hm

/-! Vote-resolution step lemmas. -/

theorem voteStep_def_nosign (m : List (String × (Int × Int))) (ev : NEvent)
    (hs : evSign ev = none) : voteStep m ev = m := by
  unfold voteStep
  rw [hs]

theorem voteStep_def_nopubkey (m : List (String × (Int × Int))) (ev : NEvent) (s : Int)
    (hs : evSign ev = some s) (hpk : ev.pubkey = "") : voteStep m ev = m := by
  unfold voteStep
  rw [hs]
  simp [hpk]

theorem voteStep_def_new (m : List (String × (Int × Int))) (ev : NEvent) (s : Int)
    (hs : evSign ev = some s) (hpk : ev.pubkey ≠ "")
    (hg : assocGet m ev.pubkey = none) :
    voteStep m ev = assocSet m ev.pubkey (caD ev, s) := by
  unfold voteStep
  rw [hs]
  simp [hpk, hg]

theorem voteStep_def_newer (m : List (String × (Int × Int))) (ev : NEvent) (s : Int)
    (prev : Int × Int) (hs : evSign ev = some s) (hpk : ev.pubkey ≠ "")
    (hg : assocGet m ev.pubkey = some prev) (hlt : prev.1 < caD ev) :
    voteStep m ev = assocSet m ev.pubkey (caD ev, s) := by
  unfold voteStep
  rw [hs]
  simp [hpk, hg, hlt]

theorem voteStep_def_stale (m : List (String × (Int × Int))) (ev : NEvent) (s : Int)
    (prev : Int × Int) (hs : evSign ev = some s) (hpk : ev.pubkey ≠ "")
    (hg : assocGet m ev.pubkey = some prev) (hlt : ¬prev.1 < caD ev) :
    voteStep m ev = m := by
  unfold voteStep
  rw [hs]
  simp [hpk, hg, hlt]

theorem counted_elim (ev : NEvent) (h : counted ev = true) :
    (∃ s, evSign ev = some s) ∧ ev.pubkey ≠ "" := by
  simp only [counted, Bool.and_eq_true, Option.isSome_iff_exists, bne_iff_ne] at h
  exact h

theorem counted_false_elim (ev : NEvent) (h : counted ev = false) :
    evSign ev = none ∨ ev.pubkey = "" := by
  by_cases hs : (evSign ev).isSome
  · right
    simp only [counted, hs, Bool.true_and, bne_eq_false_iff_eq] at h
    exact h
  · left
    exact Option.not_isSome_iff_eq_none.mp hs

theorem voteStep_not_counted (m : List (String × (Int × Int))) (ev : NEvent)
    (h : counted ev = false) : voteStep m ev = m := by
  rcases counted_false_elim ev h with hs | hpk
  · exact voteStep_def_nosign m ev hs
  · cases hs : evSign ev with
    | none => exact voteStep_def_nosign m ev hs
    | some s => exact voteStep_def_nopubkey m ev s hs hpk

theorem voteStep_get_ne (m : List (String × (Int × Int))) (ev : NEvent) (v : String)
    (hv : v ≠ ev.pubkey) : assocGet (voteStep m ev) v = assocGet m v := by
  cases hs : evSign ev with
  | none => rw [voteStep_def_nosign m ev hs]
  | some s =>
    by_cases hpk : ev.pubkey = ""
    · rw [voteStep_def_nopubkey m ev s hs hpk]
    · cases hg : assocGet m ev.pubkey with
      | none =>
        rw [voteStep_def_new m ev s hs hpk hg]
        exact assocGet_assocSet_ne m ev.pubkey (caD ev, s) v hv
      | some prev =>
        by_cases hlt : prev.1 < caD ev
        · rw [voteStep_def_newer m ev s prev hs hpk hg hlt]
          exact assocGet_assocSet_ne m ev.pubkey (caD ev, s) v hv
        · rw [voteStep_def_stale m ev s prev hs hpk hg hlt]

theorem voteStep_persist (m : List (String × (Int × Int))) (ev : NEvent) (v : String)
    (p : Int × Int) (h : assocGet m v = some p) :
    ∃ q, assocGet (voteStep m ev) v = some q ∧ p.1 ≤ q.1 := by
  by_cases hv : v = ev.pubkey
  · subst hv
    cases hs : evSign ev with
    | none =>
      rw [voteStep_def_nosign m ev hs]
      exact ⟨p, h, le_refl _⟩
    | some s =>
      by_cases hpk : ev.pubkey = ""
      · rw [voteStep_def_nopubkey m ev s hs hpk]
        exact ⟨p, h, le_refl _⟩
      · by_cases hlt : p.1 < caD ev
        · rw [voteStep_def_newer m ev s p hs hpk h hlt]
          exact ⟨(caD ev, s), assocGet_assocSet_self m ev.pubkey (caD ev, s), le_of_lt hlt⟩
        · rw [voteStep_def_stale m ev s p hs hpk h hlt]
          exact ⟨p, h, le_refl _⟩
  · refine ⟨p, ?_, le_refl _⟩
    rw [voteStep_get_ne m ev v hv]
    exact h

theorem voteStep_origin (m : List (String × (Int × Int))) (ev : NEvent) (v : String)
    (q : Int × Int) (h : assocGet (voteStep m ev) v = some q) :
    assocGet m v = some q ∨
      (counted ev = true ∧ ev.pubkey = v ∧ caD ev = q.1 ∧ evSign ev = some q.2) := by
  by_cases hv : v = ev.pubkey
  · subst hv
    cases hs : evSign ev with
    | none =>
      rw [voteStep_def_nosign m ev hs] at h
      exact Or.inl h
    | some s =>
      by_cases hpk : ev.pubkey = ""
      · rw [voteStep_def_nopubkey m ev s hs hpk] at h
        exact Or.inl h
      · have hc : counted ev = true := by
          simp [counted, hs, bne_iff_ne, hpk]
        cases hg : assocGet m ev.pubkey with
        | none =>
          rw [voteStep_def_new m ev s hs hpk hg,
            assocGet_assocSet_self m ev.pubkey (caD ev, s)] at h
          obtain rfl := (Option.some.injEq _ _).mp h
          exact Or.inr ⟨hc, rfl, rfl, by simp [hs]⟩
        | some prev =>
          by_cases hlt : prev.1 < caD ev
          · rw [voteStep_def_newer m ev s prev hs hpk hg hlt,
              assocGet_assocSet_self m ev.pubkey (caD ev, s)] at h
            obtain rfl := (Option.some.injEq _ _).mp h
            exact Or.inr ⟨hc, rfl, rfl, by simp [hs]⟩
          · rw [voteStep_def_stale m ev s prev hs hpk hg hlt] at h
            rw [hg] at h
            exact Or.inl h
  · rw [voteStep_get_ne m ev v hv] at h
    exact Or.inl h

theorem voteStep_get_self (m : List (String × (Int × Int))) (ev : NEvent)
    (hc : counted ev = true) :
    ∃ q, assocGet (voteStep m ev) ev.pubkey = some q ∧ caD ev ≤ q.1 := by
  obtain ⟨⟨s, hs⟩, hpk⟩ := counted_elim ev hc
  cases hg : assocGet m ev.pubkey with
  | none =>
    rw [voteStep_def_new m ev s hs hpk hg]
    exact ⟨(caD ev, s), assocGet_assocSet_self m ev.pubkey (caD ev, s), le_refl _⟩
  | some prev =>
    by_cases hlt : prev.1 < caD ev
    · rw [voteStep_def_newer m ev s prev hs hpk hg hlt]
      exact ⟨(caD ev, s), assocGet_assocSet_self m ev.pubkey (caD ev, s), le_refl _⟩
    · rw [voteStep_def_stale m ev s prev hs hpk hg hlt]
      exact ⟨prev, hg, le_of_not_lt hlt⟩

theorem voteStep_keys_nodup (m : List (String × (Int × Int))) (ev : NEvent)
    (h : (assocKeys m).Nodup) : (assocKeys (voteStep m ev)).Nodup := by
  cases hs : evSign ev with
  | none => rw [voteStep_def_nosign m ev hs]; exact h
  | some s =>
    by_cases hpk : ev.pubkey = ""
    · rw [voteStep_def_nopubkey m ev s hs hpk]; exact h
    · cases hg : assocGet m ev.pubkey with
      | none =>
        rw [voteStep_def_new m ev s hs hpk hg]
        exact assocKeys_nodup_assocSet m ev.pubkey (caD ev, s) h
      | some prev =>
        by_cases hlt : prev.1 < caD ev
        · rw [voteStep_def_newer m ev s prev hs hpk hg hlt]
          exact assocKeys_nodup_assocSet m ev.pubkey (caD ev, s) h
        · rw [voteStep_def_stale m ev s prev hs hpk hg hlt]
          exact h

/-! Fold-level lemmas about `latestByVoter`, stated over a general
accumulator so that list induction goes through. -/

theorem foldl_voteStep_persist (l : List NEvent) :
    ∀ (m : List (String × (Int × Int))) (v : String) (p : Int × Int),
      assocGet m v = some p →
      ∃ q, assocGet (l.foldl voteStep m) v = some q ∧ p.1 ≤ q.1 := by
  induction l with
  | nil => exact fun m v p h => ⟨p, h, le_refl _⟩
  | cons ev l ih =>
    intro m v p h
    obtain ⟨q, hq, hle⟩ := voteStep_persist m ev v p h
    obtain ⟨r, hr, hle'⟩ := ih (voteStep m ev) v q hq
    exact ⟨r, hr, le_trans hle hle'⟩

theorem foldl_voteStep_origin (l : List NEvent) :
    ∀ (m : List (String × (Int × Int))) (v : String) (q : Int × Int),
      assocGet (l.foldl voteStep m) v = some q →
      assocGet m v = some q ∨
        ∃ ev, ev ∈ l ∧ counted ev = true ∧ ev.pubkey = v ∧
          caD ev = q.1 ∧ evSign ev = some q.2 := by
  induction l with
  | nil => exact fun m v q h => Or.inl h
  | cons ev l ih =>
    intro m v q h
    rcases ih (voteStep m ev) v q h with h' | ⟨ev', hmem, hrest⟩
    · rcases voteStep_origin m ev v q h' with h'' | ⟨hc, hpk, hca, hsg⟩
      · exact Or.inl h''
      · exact Or.inr ⟨ev, List.mem_cons_self ev l, hc, hpk, hca, hsg⟩
    · exact Or.inr ⟨ev', List.mem_cons_of_mem ev hmem, hrest⟩

theorem foldl_voteStep_max (l : List NEvent) :
    ∀ (m : List (String × (Int × Int))) (ev : NEvent), ev ∈ l → counted ev = true →
      ∃ q, assocGet (l.foldl voteStep m) ev.pubkey = some q ∧ caD ev ≤ q.1 := by
  induction l with
  | nil => intro m ev h; exact absurd h (List.not_mem_nil ev)
  | cons ev' l ih =>
    intro m ev hmem hc
    rcases List.mem_cons.mp hmem with heq | htail
    · subst heq
      obtain ⟨q, hq, hle⟩ := voteStep_get_self m ev hc
      obtain ⟨r, hr, hle'⟩ := foldl_voteStep_persist l (voteStep m ev) ev.pubkey q hq
      exact ⟨r, hr, le_trans hle hle'⟩
    · exact ih (voteStep m ev') ev htail hc

theorem foldl_voteStep_keys_nodup (l : List NEvent) :
    ∀ m : List (String × (Int × Int)),
      (assocKeys m).Nodup → (assocKeys (l.foldl voteStep m)).Nodup := by
  induction l with
  | nil => exact fun m h => h
  | cons ev l ih => exact fun m h => ih (voteStep m ev) (voteStep_keys_nodup m ev h)

theorem latestByVoter_keys_nodup (l : List NEvent) : (assocKeys (latestByVoter l)).Nodup :=
  foldl_voteStep_keys_nodup l [] (by simp [assocKeys])

theorem latestByVoter_origin (l : List NEvent) (v : String) (q : Int × Int)
    (h : assocGet (latestByVoter l) v = some q) :
    ∃ ev, ev ∈ l ∧ counted ev = true ∧ ev.pubkey = v ∧
      caD ev = q.1 ∧ evSign ev = some q.2 := by
  rcases foldl_voteStep_origin l [] v q h with h' | h'
  · exact absurd h' (by simp [assocGet])
  · exact h'

theorem latestByVoter_max (l : List NEvent) (ev : NEvent) (hmem : ev ∈ l)
    (hc : counted ev = true) :
    ∃ q, assocGet (latestByVoter l) ev.pubkey = some q ∧ caD ev ≤ q.1 :=
  foldl_voteStep_max l [] ev hmem hc

theorem latestByVoter_get_eq_of_perm (l₁ l₂ : List NEvent) (hp : l₁.Perm l₂)
    (H : ∀ e₁, e₁ ∈ l₁ → ∀ e₂, e₂ ∈ l₁ → counted e₁ = true → counted e₂ = true →
      e₁.pubkey = e₂.pubkey → caD e₁ = caD e₂ → evSign e₁ = evSign e₂)
    (v : String) : assocGet (latestByVoter l₁) v = assocGet (latestByVoter l₂) v := by
  cases h₁ : assocGet (latestByVoter l₁) v with
  | none =>
    cases h₂ : assocGet (latestByVoter l₂) v with
    | none => rfl
    | some q₂ =>
      obtain ⟨e₂, hmem₂, hc₂, hpk₂, -, -⟩ := latestByVoter_origin l₂ v q₂ h₂
      have hmem₁ : e₂ ∈ l₁ := hp.symm.subset hmem₂
      obtain ⟨q, hq, -⟩ := latestByVoter_max l₁ e₂ hmem₁ hc₂
      rw [hpk₂, h₁] at hq
      exact absurd hq (by simp)
  | some q₁ =>
    cases h₂ : assocGet (latestByVoter l₂) v with
    | none =>
      obtain ⟨e₁, hmem₁, hc₁, hpk₁, -, -⟩ := latestByVoter_origin l₁ v q₁ h₁
      have hmem₂ : e₁ ∈ l₂ := hp.subset hmem₁
      obtain ⟨q, hq, -⟩ := latestByVoter_max l₂ e₁ hmem₂ hc₁
      rw [hpk₁, h₂] at hq
      exact absurd hq (by simp)
    | some q₂ =>
      obtain ⟨e₁, hmem₁, hc₁, hpk₁, hca₁, hsg₁⟩ := latestByVoter_origin l₁ v q₁ h₁
      obtain ⟨e₂, hmem₂, hc₂, hpk₂, hca₂, hsg₂⟩ := latestByVoter_origin l₂ v q₂ h₂
      have hmem₂' : e₂ ∈ l₁ := hp.symm.subset hmem₂
      have hmem₁' : e₁ ∈ l₂ := hp.subset hmem₁
      obtain ⟨r₁, hr₁, hle₁⟩ := latestByVoter_max l₁ e₂ hmem₂' hc₂
      rw [hpk₂, h₁] at hr₁
      have req₁ : q₁ = r₁ := (Option.some.injEq _ _).mp hr₁
      obtain ⟨r₂, hr₂, hle₂⟩ := latestByVoter_max l₂ e₁ hmem₁' hc₁
      rw [hpk₁, h₂] at hr₂
      have req₂ : q₂ = r₂ := (Option.some.injEq _ _).mp hr₂
      have hts : q₁.1 = q₂.1 := by
        apply le_antisymm
        · calc q₁.1 = caD e₁ := hca₁.symm
            _ ≤ r₂.1 := hle₂
            _ = q₂.1 := by rw [req₂]
        · calc q₂.1 = caD e₂ := hca₂.symm
            _ ≤ r₁.1 := hle₁
            _ = q₁.1 := by rw [req₁]
      have hsg : evSign e₁ = evSign e₂ :=
        H e₁ hmem₁ e₂ hmem₂' hc₁ hc₂ (hpk₁.trans hpk₂.symm) (by rw [hca₁, hca₂, hts])
      have h22 : q₁.2 = q₂.2 := by
        have h' : some q₁.2 = some q₂.2 := by rw [← hsg₁, hsg, hsg₂]
        exact (Option.some.injEq _ _).mp h'
      rw [Prod.ext hts h22]

theorem latestByVoter_perm (l₁ l₂ : List NEvent) (hp : l₁.Perm l₂)
    (H : ∀ e₁, e₁ ∈ l₁ → ∀ e₂, e₂ ∈ l₁ → counted e₁ = true → counted e₂ = true →
      e₁.pubkey = e₂.pubkey → caD e₁ = caD e₂ → evSign e₁ = evSign e₂) :
    (latestByVoter l₁).Perm (latestByVoter l₂) := by
  have hk₁ := latestByVoter_keys_nodup l₁
  have hk₂ := latestByVoter_keys_nodup l₂
  have hn₁ : (latestByVoter l₁).Nodup := List.Nodup.of_map _ hk₁
  have hn₂ : (latestByVoter l₂).Nodup := List.Nodup.of_map _ hk₂
  apply List.perm_of_nodup_nodup_toFinset_eq hn₁ hn₂
  ext p
  obtain ⟨k, val⟩ := p
  simp only [List.mem_toFinset]
  rw [mem_iff_assocGet _ hk₁ k val, mem_iff_assocGet _ hk₂ k val,
    latestByVoter_get_eq_of_perm l₁ l₂ hp H k]

theorem score_foldl (m : List (String × (Int × Int))) :
    ∀ a : Int, m.foldl (fun score p => score + p.2.2) a = a + (m.map (fun p => p.2.2)).sum := by
  induction m with
  | nil => intro a; simp
  | cons x m ih =>
    intro a
    rw [List.foldl_cons, ih, List.map_cons, List.sum_cons, add_assoc]

theorem computeScore_eq_sum (l : List NEvent) :
    computeScore l = ((latestByVoter l).map (fun p => p.2.2)).sum := by
  unfold computeScore
  rw [score_foldl]
  rw [zero_add]

theorem computeScore_eq_of_perm (l₁ l₂ : List NEvent) (hp : l₁.Perm l₂)
    (H : ∀ e₁, e₁ ∈ l₁ → ∀ e₂, e₂ ∈ l₁ → counted e₁ = true → counted e₂ = true →
      e₁.pubkey = e₂.pubkey → caD e₁ = caD e₂ → evSign e₁ = evSign e₂) :
    computeScore l₁ = computeScore l₂ := by
  rw [computeScore_eq_sum, computeScore_eq_sum]
  exact List.Perm.sum_eq (List.Perm.map _ (latestByVoter_perm l₁ l₂ hp H))

theorem latestByVoter_append_self (l : List NEvent) (ev : NEvent) (hmem : ev ∈ l) :
    latestByVoter (l ++ [ev]) = latestByVoter l := by
  unfold latestByVoter
  rw [List.foldl_append]
  simp only [List.foldl_cons, List.foldl_nil]
  cases hc : counted ev with
  | false => exact voteStep_not_counted _ ev hc
  | true =>
    obtain ⟨q, hq, hle⟩ := latestByVoter_max l ev hmem hc
    obtain ⟨⟨s, hs⟩, hpk⟩ := counted_elim ev hc
    exact voteStep_def_stale _ ev s q hs hpk hq (not_lt.mpr hle)

theorem computeScore_append_self (l : List NEvent) (ev : NEvent) (hmem : ev ∈ l) :
    computeScore (l ++ [ev]) = computeScore l := by
  unfold computeScore
  rw [latestByVoter_append_self l ev hmem]

theorem assocSet_preserves {α : Type} (P : String × α → Prop) (m : List (String × α))
    (k : String) (v : α) (hm : ∀ p ∈ m, P p) (hv : P (k, v)) :
    ∀ p ∈ assocSet m k v, P p := by
  induction m with
  | nil => simpa [assocSet] using hv
  | cons q rest ih =>
    by_cases hq : q.1 = k
    · intro p hp
      simp only [assocSet, if_pos hq, List.mem_cons] at hp
      rcases hp with hp | hp
      · exact hp ▸ hv
      · exact hm p (List.mem_cons_of_mem q hp)
    · intro p hp
      simp only [assocSet, if_neg hq, List.mem_cons] at hp
      rcases hp with hp | hp
      · exact hp ▸ hm q (List.mem_cons_self q rest)
      · exact ih (fun x hx => hm x (List.mem_cons_of_mem q hx)) p hp

/-! Relay-collection lemmas. -/

theorem foldl_assocSet_keys_nodup (emitted : List NEvent) :
    ∀ m : List (String × NEvent), (assocKeys m).Nodup →
      (assocKeys (emitted.foldl (fun m ev => assocSet m ev.id ev) m)).Nodup := by
  induction emitted with
  | nil => exact fun m h => h
  | cons ev l ih => exact fun m h => ih _ (assocKeys_nodup_assocSet m ev.id ev h)

theorem foldl_assocSet_id_eq_key (emitted : List NEvent) :
    ∀ m : List (String × NEvent), (∀ p ∈ m, p.2.id = p.1) →
      ∀ p ∈ emitted.foldl (fun m ev => assocSet m ev.id ev) m, p.2.id = p.1 := by
  induction emitted with
  | nil => exact fun m h => h
  | cons ev l ih =>
    intro m h
    exact ih _ (assocSet_preserves (fun p => p.2.id = p.1) m ev.id ev h rfl)

theorem dedupById_ids_nodup (emitted : List NEvent) :
    ((dedupById emitted).map (fun ev => ev.id)).Nodup := by
  unfold dedupById
  rw [List.map_map]
  have hkeys := foldl_assocSet_keys_nodup emitted [] (by simp [assocKeys])
  have hid := foldl_assocSet_id_eq_key emitted [] (by simp)
  have hmaps :
      (emitted.foldl (fun m ev => assocSet m ev.id ev) []).map ((fun ev => ev.id) ∘ (·.2))
        = (emitted.foldl (fun m ev => assocSet m ev.id ev) []).map (·.1) :=
    List.map_congr_left (fun p hp => hid p hp)
  rw [hmaps]
  exact hkeys

theorem fetchStep_eq (acc : List NEvent) (r : Except String (List NEvent)) :
    fetchStep acc r = acc ++ relayContribution r := by
  unfold fetchStep relayContribution
  cases collectFromRelay r with
  | ok events => rfl
  | error e => simp

theorem fetch_foldl_general (rs : List (Except String (List NEvent))) :
    ∀ acc : List NEvent,
      rs.foldl fetchStep acc = acc ++ (rs.map relayContribution).flatten := by
  induction rs with
  | nil => intro acc; simp
  | cons r rs ih =>
    intro acc
    rw [List.foldl_cons, fetchStep_eq acc r, ih, List.map_cons, List.flatten_cons,
      List.append_assoc]

/-! Feed-buffer lemmas. -/

theorem insertDesc_perm (ev : NEvent) (l : List NEvent) :
    (insertDesc ev l).Perm (ev :: l) := by
  induction l with
  | nil => exact List.Perm.refl _
  | cons x xs ih =>
    simp only [insertDesc]
    by_cases h : caD x < caD ev
    · rw [if_pos h]
    · rw [if_neg h]
      exact (ih.cons x).trans (List.Perm.swap ev x xs)

theorem sortDesc_foldl_perm (l : List NEvent) :
    ∀ acc : List NEvent, (l.foldl (fun acc ev => insertDesc ev acc) acc).Perm (l ++ acc) := by
  induction l with
  | nil => intro acc; simp [List.Perm.refl]
  | cons x l ih =>
    intro acc
    rw [List.foldl_cons]
    refine (ih (insertDesc x acc)).trans ?_
    refine (List.Perm.append_left l (insertDesc_perm x acc)).trans ?_
    exact List.perm_middle

theorem sortByCreatedAtDesc_perm (l : List NEvent) : (sortByCreatedAtDesc l).Perm l := by
  unfold sortByCreatedAtDesc
  simpa using sortDesc_foldl_perm l []

theorem insertDesc_pairwise (ev : NEvent) (l : List NEvent)
    (h : l.Pairwise (fun a b => caD b ≤ caD a)) :
    (insertDesc ev l).Pairwise (fun a b => caD b ≤ caD a) := by
  induction l with
  | nil => simp [insertDesc]
  | cons x xs ih =>
    simp only [insertDesc]
    rcases List.pairwise_cons.mp h with ⟨hx, hxs⟩
    by_cases hlt : caD x < caD ev
    · rw [if_pos hlt]
      refine List.pairwise_cons.mpr ⟨?_, h⟩
      intro b hb
      rcases List.mem_cons.mp hb with rfl | hb
      · exact le_of_lt hlt
      · exact le_trans (hx b hb) (le_of_lt hlt)
    · rw [if_neg hlt]
      refine List.pairwise_cons.mpr ⟨?_, ih hxs⟩
      intro b hb
      have hb' : b ∈ ev :: xs := (insertDesc_perm ev xs).subset hb
      rcases List.mem_cons.mp hb' with rfl | hb'
      · exact le_of_not_lt hlt
      · exact hx b hb'

theorem sortDesc_foldl_pairwise (l : List NEvent) :
    ∀ acc : List NEvent, acc.Pairwise (fun a b => caD b ≤ caD a) →
      (l.foldl (fun acc ev => insertDesc ev acc) acc).Pairwise (fun a b => caD b ≤ caD a) := by
  induction l with
  | nil => exact fun acc h => h
  | cons x l ih => exact fun acc h => ih _ (insertDesc_pairwise x acc h)

theorem sortByCreatedAtDesc_pairwise (l : List NEvent) :
    (sortByCreatedAtDesc l).Pairwise (fun a b => caD b ≤ caD a) :=
  sortDesc_foldl_pairwise l [] List.Pairwise.nil

theorem flushBufferToFeed_emits (st : ClientState) :
    (flushBufferToFeed st).1
      = if st.buffer.isEmpty then [] else sortByCreatedAtDesc st.buffer := by
  unfold flushBufferToFeed
  by_cases h : st.buffer.isEmpty
  · rw [if_pos h, if_pos h]
  · rw [if_neg h, if_neg h]

theorem flushBufferToFeed_buffer (st : ClientState) :
    (flushBufferToFeed st).2.buffer = [] := by
  unfold flushBufferToFeed
  by_cases h : st.buffer.isEmpty
  · rw [if_pos h]
    exact List.isEmpty_iff.mp h
  · rw [if_neg h]

theorem flushBufferToFeed_seenIds (st : ClientState) :
    (flushBufferToFeed st).2.seenIds = st.seenIds := by
  unfold flushBufferToFeed
  by_cases h : st.buffer.isEmpty
  · rw [if_pos h]
  · rw [if_neg h]

theorem flushBufferToFeed_twice (st : ClientState) :
    (flushBufferToFeed (flushBufferToFeed st).2).1 = [] := by
  rw [flushBufferToFeed_emits, flushBufferToFeed_buffer]
  rfl

theorem bufferIncoming_seen (st : ClientState) (ev : NEvent) (h : ev.id ∈ st.seenIds) :
    bufferIncoming st ev = st := by
  unfold bufferIncoming
  rw [if_pos (Or.inr h)]

theorem bufferIncoming_new (st : ClientState) (ev : NEvent) (h1 : ev.id ≠ "")
    (h2 : ev.id ∉ st.seenIds) :
    bufferIncoming st ev
      = { st with seenIds := st.seenIds ++ [ev.id], buffer := st.buffer ++ [ev] } := by
  unfold bufferIncoming
  rw [if_neg (not_or.mpr ⟨h1, h2⟩)]

theorem bufferIncoming_mem_seen (st : ClientState) (ev : NEvent) (h1 : ev.id ≠ "") :
    ev.id ∈ (bufferIncoming st ev).seenIds := by
  by_cases h2 : ev.id ∈ st.seenIds
  · rw [bufferIncoming_seen st ev h2]
    exact h2
  · rw [bufferIncoming_new st ev h1 h2]
    simp

/-! Claim theorems. -/

/-- C1: for every input collection of vote events and every voter
pubkey, `computeScore` retains for that voter exactly one entry, whose
timestamp is the greatest among that voter's valid vote events and
which carries the sign of a vote event achieving that timestamp; in
particular a voter who cast sign +1 at timestamp 10 and sign -1 at
timestamp 20 for the same target contributes exactly -1 to the
returned score (in either arrival order). -/
theorem c1_latest_timestamp_wins :
    (∀ (l : List NEvent) (v : String) (ts s : Int),
       assocGet (latestByVoter l) v = some (ts, s) →
       (∃ ev, ev ∈ l ∧ counted ev = true ∧ ev.pubkey = v ∧
          caD ev = ts ∧ evSign ev = some s) ∧
       (∀ ev, ev ∈ l → counted ev = true → ev.pubkey = v → caD ev ≤ ts)) ∧
    computeScore [votePlusAt10, voteMinusAt20] = -1 ∧
    computeScore [voteMinusAt20, votePlusAt10] = -1 := by
  refine ⟨?_, by decide, by decide⟩
  intro l v ts s h
  constructor
  · exact latestByVoter_origin l v (ts, s) h
  · intro ev hmem hc hpk
    obtain ⟨q, hq, hle⟩ := latestByVoter_max l ev hmem hc
    rw [hpk, h] at hq
    have hq' : q = (ts, s) := ((Option.some.injEq _ _).mp hq).symm
    rw [hq'] at hle
    exact hle

/-- Witness for C1 at the concrete two-vote list. -/
theorem c1_latest_timestamp_wins_witness :
    (∃ ev, ev ∈ [votePlusAt10, voteMinusAt20] ∧ counted ev = true ∧
       ev.pubkey = "alice" ∧ caD ev = 20 ∧ evSign ev = some (-1)) ∧
    (∀ ev, ev ∈ [votePlusAt10, voteMinusAt20] → counted ev = true →
       ev.pubkey = "alice" → caD ev ≤ 20) :=
  c1_latest_timestamp_wins.1 [votePlusAt10, voteMinusAt20] "alice" 20 (-1) (by decide)

/-- C2 counterexample: two valid, well-formed vote events from the
same voter with equal timestamps and opposite signs; swapping them
changes the computed score (the strict `ts > prev.ts` comparison keeps
the first-seen entry on a tie), so `computeScore` is not invariant
under permutation of the input sequence. -/
theorem c2_counterexample :
    List.Perm [tiePlus, tieMinus] [tieMinus, tiePlus] ∧
    computeScore [tiePlus, tieMinus] = 1 ∧
    computeScore [tieMinus, tiePlus] = -1 :=
  ⟨List.Perm.swap tieMinus tiePlus [], by decide, by decide⟩

/-- C2 (amended): `computeScore` is invariant under appending a
duplicate of any event already in the input, and it is invariant under
permutation provided any two valid vote events from the same voter
with equal timestamps carry equal signs (in particular whenever each
voter's valid timestamps are distinct). -/
theorem c2_idempotent_merge :
    (∀ (l : List NEvent) (ev : NEvent), ev ∈ l →
       computeScore (l ++ [ev]) = computeScore l) ∧
    (∀ l₁ l₂ : List NEvent, l₁.Perm l₂ →
       (∀ e₁, e₁ ∈ l₁ → ∀ e₂, e₂ ∈ l₁ → counted e₁ = true → counted e₂ = true →
         e₁.pubkey = e₂.pubkey → caD e₁ = caD e₂ → evSign e₁ = evSign e₂) →
       computeScore l₁ = computeScore l₂) :=
  ⟨computeScore_append_self, computeScore_eq_of_perm⟩

/-- Witness for C2 (amended): duplicate append and a tie-free
permutation at concrete inputs. -/
theorem c2_idempotent_merge_witness :
    computeScore ([votePlusAt10] ++ [votePlusAt10]) = computeScore [votePlusAt10] ∧
    computeScore [votePlusAt10, voteMinusAt20] = computeScore [voteMinusAt20, votePlusAt10] :=
  ⟨c2_idempotent_merge.1 [votePlusAt10] votePlusAt10 (by decide),
   c2_idempotent_merge.2 [votePlusAt10, voteMinusAt20] [voteMinusAt20, votePlusAt10]
     (List.Perm.swap voteMinusAt20 votePlusAt10 []) (by decide)⟩

/-- C3 counterexample: an event carrying a valid `v` tag but neither a
`p` tag nor an `e` tag is not excluded by `computeScore` — it
contributes 1 to the score, because `computeScore` never inspects the
`p` or `e` tags. -/
theorem c3_counterexample : computeScore [voteNoPE] = 1 := by decide

/-- C3 (amended): an event whose `v` tag is missing or whose `v` value
does not evaluate to one of 1, -1, 0 (`evSign ev = none`), or whose
pubkey is empty, is excluded from the score wherever it occurs in the
input (and the embedding is a total function, so no error is raised);
`p` and `e` tags are not checked by `computeScore`. -/
theorem c3_malformed_excluded (l₁ l₂ : List NEvent) (ev : NEvent)
    (h : evSign ev = none ∨ ev.pubkey = "") :
    computeScore (l₁ ++ ev :: l₂) = computeScore (l₁ ++ l₂) := by
  unfold computeScore latestByVoter
  rw [List.foldl_append, List.foldl_cons, List.foldl_append]
  have hstep : voteStep (List.foldl voteStep [] l₁) ev = List.foldl voteStep [] l₁ := by
    rcases h with hs | hpk
    · exact voteStep_def_nosign _ ev hs
    · cases hs : evSign ev with
      | none => exact voteStep_def_nosign _ ev hs
      | some s => exact voteStep_def_nopubkey _ ev s hs hpk
  rw [hstep]

/-- Witness for C3 (amended) at an out-of-domain sign value. -/
theorem c3_malformed_excluded_witness :
    computeScore ([votePlusAt10] ++ voteBadV :: []) = computeScore ([votePlusAt10] ++ []) :=
  c3_malformed_excluded [votePlusAt10] [] voteBadV (Or.inl (by decide))

/-- C4 counterexample: a vote echoed by two relays appears twice in
the merged collection `fetchVotesForPost` hands to the resolution
step — the merge is a plain concatenation (`results.push(...events)`,
src/test.js:260), with no cross-relay deduplication by event id. -/
theorem c4_counterexample :
    fetchVotesForPost [Except.ok [echoedVote], Except.ok [echoedVote]]
        = [echoedVote, echoedVote] ∧
    (fetchVotesForPost [Except.ok [echoedVote], Except.ok [echoedVote]]).countP
        (fun x => x.id == echoedVote.id) = 2 :=
  ⟨by decide, by decide⟩

/-- C4 (amended): deduplication by event id happens only within a
single relay's collection — `collectFromRelay` keys its result object
by `ev.id`, so each per-relay set names every id at most once — while
`fetchVotesForPost` merges the per-relay sets by concatenation, so an
event echoed by several relays appears once per echoing relay. -/
theorem c4_per_relay_dedup :
    (∀ emitted : List NEvent, ((dedupById emitted).map (fun ev => ev.id)).Nodup) ∧
    (∀ rs : List (Except String (List NEvent)),
       fetchVotesForPost rs = (rs.map relayContribution).flatten) := by
  refine ⟨dedupById_ids_nodup, fun rs => ?_⟩
  unfold fetchVotesForPost
  rw [fetch_foldl_general rs []]
  rfl

/-- C8 counterexample: a synchronous `relay.sub` failure rejects the
promise `collectFromRelay` returns, so the error does reach its
caller (`fetchVotesForPost` catches it there, not locally). -/
theorem c8_counterexample :
    collectFromRelay (Except.error "sub failed") = Except.error "sub failed" ∧
    Except.error "sub failed" ≠ (Except.ok [] : Except String (List NEvent)) :=
  ⟨rfl, fun h => Except.noConfusion h⟩

/-- C5 counterexample: the seen-ids set does not span the rendered
feed.  A note rendered by `publishNote`'s optimistic render is not
recorded in `seenIds`, so when a relay echoes the same event id,
`bufferIncoming` buffers it even though it is already visible — and
the next flush renders the same id a second time. -/
theorem c5_counterexample :
    plainNote ∈ (publishNote emptyClientState plainNote).feed ∧
    (bufferIncoming (publishNote emptyClientState plainNote) plainNote).buffer
        = [plainNote] ∧
    (flushBufferToFeed
        (bufferIncoming (publishNote emptyClientState plainNote) plainNote)).2.feed
        = [plainNote, plainNote] :=
  ⟨by decide, by decide, by decide⟩

/-- C5 (amended): the seen set covers every id that entered through
`bufferIncoming` and never shrinks, so a second offer of an event with
the same (nonempty) id is a no-op, an offer after a flush of that id
is a no-op, and two offers from a fresh state leave exactly one
pending entry; however the seen set does not cover `publishNote`'s
optimistic render, so an id rendered that way can still be buffered
and rendered a second time. -/
theorem c5_seen_ids_monotone (st : ClientState) (ev : NEvent) (h : ev.id ≠ "") :
    bufferIncoming (bufferIncoming st ev) ev = bufferIncoming st ev ∧
    bufferIncoming (flushBufferToFeed (bufferIncoming st ev)).2 ev
        = (flushBufferToFeed (bufferIncoming st ev)).2 ∧
    (bufferIncoming (bufferIncoming emptyClientState ev) ev).buffer.length = 1 := by
  refine ⟨?_, ?_, ?_⟩
  · exact bufferIncoming_seen _ ev (bufferIncoming_mem_seen st ev h)
  · apply bufferIncoming_seen
    rw [flushBufferToFeed_seenIds]
    exact bufferIncoming_mem_seen st ev h
  · have hnew := bufferIncoming_new emptyClientState ev h (by simp [emptyClientState])
    rw [hnew]
    rw [bufferIncoming_seen _ ev (by simp [emptyClientState])]
    simp [emptyClientState]

/-- Witness for C5 (amended) at a concrete note and the fresh state. -/
theorem c5_seen_ids_monotone_witness :
    bufferIncoming (bufferIncoming emptyClientState plainNote) plainNote
        = bufferIncoming emptyClientState plainNote ∧
    bufferIncoming (flushBufferToFeed (bufferIncoming emptyClientState plainNote)).2 plainNote
        = (flushBufferToFeed (bufferIncoming emptyClientState plainNote)).2 ∧
    (bufferIncoming (bufferIncoming emptyClientState plainNote) plainNote).buffer.length = 1 :=
  c5_seen_ids_monotone emptyClientState plainNote (by decide)

/-- C6 counterexample: two pending events with equal `created_at` and
distinct ids.  The flush sort is the ECMAScript stable sort keyed only
on `created_at`, so the emitted sequence follows arrival order on
ties: permuting the buffer permutes the output, hence the output does
not depend only on the multiset and there is no id tie-break. -/
theorem c6_counterexample :
    List.Perm [tieNoteA, tieNoteB] [tieNoteB, tieNoteA] ∧
    (flushBufferToFeed
        { seenIds := [], buffer := [tieNoteA, tieNoteB], feed := [] }).1
        = [tieNoteA, tieNoteB] ∧
    (flushBufferToFeed
        { seenIds := [], buffer := [tieNoteB, tieNoteA], feed := [] }).1
        = [tieNoteB, tieNoteA] ∧
    tieNoteA ≠ tieNoteB :=
  ⟨List.Perm.swap tieNoteB tieNoteA [], by decide, by decide, by decide⟩

/-- C6 (amended): `flushBufferToFeed` emits exactly the pending events
(as a permutation), in weakly descending `created_at` order — with
ties broken by buffer arrival order (stable sort), not by any
input-independent rule — clears the pending buffer, and an immediately
following flush emits nothing; the spec's concrete
`[100, 300, 200] ↦ [300, 200, 100]` case holds. -/
theorem c6_flush_newest_first (st : ClientState) :
    (flushBufferToFeed st).1.Perm st.buffer ∧
    (flushBufferToFeed st).1.Pairwise (fun a b => caD b ≤ caD a) ∧
    (flushBufferToFeed st).2.buffer = [] ∧
    (flushBufferToFeed (flushBufferToFeed st).2).1 = [] ∧
    (flushBufferToFeed
        { seenIds := [], buffer := [noteAt100, noteAt300, noteAt200], feed := [] }).1
        = [noteAt300, noteAt200, noteAt100] := by
  refine ⟨?_, ?_, flushBufferToFeed_buffer st, flushBufferToFeed_twice st, by decide⟩
  · rw [flushBufferToFeed_emits]
    by_cases h : st.buffer.isEmpty
    · rw [if_pos h, List.isEmpty_iff.mp h]
    · rw [if_neg h]
      exact sortByCreatedAtDesc_perm st.buffer
  · rw [flushBufferToFeed_emits]
    by_cases h : st.buffer.isEmpty
    · rw [if_pos h]
      exact List.Pairwise.nil
    · rw [if_neg h]
      exact sortByCreatedAtDesc_pairwise st.buffer

/-- C8 (amended): once the subscription is established
`collectFromRelay` never rejects — a relay that never emits an event
yields the empty set when the timeout budget elapses, and a relay that
emits yields its events deduplicated by id — while a subscribe failure
rejects the promise and is caught one level up by `fetchVotesForPost`,
which treats that relay as contributing nothing. -/
theorem c8_relay_failure_isolated :
    (∀ emitted : List NEvent,
       collectFromRelay (Except.ok emitted) = Except.ok (dedupById emitted)) ∧
    collectFromRelay (Except.ok []) = Except.ok [] ∧
    (∀ msg : String, collectFromRelay (Except.error msg) = Except.error msg) ∧
    (∀ (rs : List (Except String (List NEvent))) (msg : String),
       fetchVotesForPost (rs ++ [Except.error msg]) = fetchVotesForPost rs) := by
  refine ⟨fun emitted => rfl, rfl, fun msg => rfl, fun rs msg => ?_⟩
  unfold fetchVotesForPost
  rw [List.foldl_append, List.foldl_cons, List.foldl_nil, fetchStep_eq]
  simp [relayContribution, collectFromRelay]

/-- C7 counterexample: at `difficultyBits = 0` the loop body still
builds the payload with a `['nonce', '0']` tag before signing, and
`!nibbles` short-circuits to returning that very event — so the event
returned on the first attempt does carry a nonce tag (here
instantiated with a signer model that, like `finishEvent`, carries the
payload's tags into the signed event). -/
theorem c7_counterexample :
    (mineAndFinish tagKeepingSigner plainUnsigned 0 5).tags = [["nonce", "0"]] ∧
    (mineAndFinish tagKeepingSigner plainUnsigned 0 5).tags.any
        (fun t => t.head? == some "nonce") = true ∧
    plainUnsigned.tags = [] :=
  ⟨rfl, rfl, rfl⟩

/-- C7 (amended): with `difficultyBits = 0` and `maxIterations ≥ 1`,
`mineAndFinish` performs exactly one signing call and returns the
first attempt — the payload with `['nonce', '0']` appended — for every
signer and every `maxIterations`; only with `maxIterations = 0` does
it return the original payload signed without a nonce tag. -/
theorem c7_zero_difficulty_single_call (finish : Unsigned → NEvent) (u : Unsigned)
    (m : Nat) :
    mineAndFinishCalls finish u 0 m = 1 ∧
    (1 ≤ m → mineAndFinish finish u 0 m = finish (withNonce u 0)) ∧
    mineAndFinish finish u 0 0 = finish u := by
  refine ⟨?_, ?_, rfl⟩
  · cases m with
    | zero => rfl
    | succ n => simp [mineAndFinishCalls, mineLoopCalls]
  · intro hm
    cases m with
    | zero => exact absurd hm (by simp)
    | succ n => simp [mineAndFinish, mineLoop]

/-- Witness for C7 (amended) at the tag-keeping signer and five
iterations. -/
theorem c7_zero_difficulty_single_call_witness :
    1 ≤ 5 ∧
    mineAndFinish tagKeepingSigner plainUnsigned 0 5
        = tagKeepingSigner (withNonce plainUnsigned 0) :=
  ⟨by decide,
   (c7_zero_difficulty_single_call tagKeepingSigner plainUnsigned 5).2.1 (by decide)⟩

/-- Read-after-write law for the vote ledger. -/
theorem ledgerGet_set_self (ledger : List (String × Int)) (eid : String) (v : Int) :
    ledgerGet (assocSet ledger eid v) eid = v := by
  unfold ledgerGet
  rw [assocGet_assocSet_self]
  rfl

/-- C9: for a requested sign in {+1, -1}, `sendVote` computes final
sign 0 exactly when the ledger's recorded sign (0 when absent) equals
the requested sign, and the requested sign otherwise; after a first
call from a ledger not already at the requested sign (which records
the requested sign), an identical second request yields 0. -/
theorem c9_toggle_to_clear (ledger : List (String × Int)) (eid : String) (sign : Int)
    (rs rs' : List (Except String Unit)) (h : sign = 1 ∨ sign = -1) :
    ((sendVote ledger eid sign rs).finalSign
        = if ledgerGet ledger eid = sign then 0 else sign) ∧
    (ledgerGet ledger eid ≠ sign →
      (sendVote (sendVote ledger eid sign rs).ledger eid sign rs').finalSign = 0) := by
  refine ⟨rfl, ?_⟩
  intro hne
  have hl : (sendVote ledger eid sign rs).ledger = assocSet ledger eid sign := by
    show assocSet ledger eid (if ledgerGet ledger eid = sign then 0 else sign)
        = assocSet ledger eid sign
    rw [if_neg hne]
  rw [hl]
  show (if ledgerGet (assocSet ledger eid sign) eid = sign then (0 : Int) else sign) = 0
  rw [ledgerGet_set_self, if_pos rfl]

/-- Witness for C9 at an empty ledger and requested sign +1. -/
theorem c9_toggle_to_clear_witness :
    ((sendVote [] "e1" 1 []).finalSign = if ledgerGet [] "e1" = 1 then 0 else 1) ∧
    (sendVote (sendVote [] "e1" 1 []).ledger "e1" 1 []).finalSign = 0 :=
  ⟨(c9_toggle_to_clear [] "e1" 1 [] [] (Or.inl rfl)).1,
   (c9_toggle_to_clear [] "e1" 1 [] [] (Or.inl rfl)).2 (by decide)⟩

/-- C10 counterexample: when every relay rejects the publish (total
publish failure), `sendVote` still writes the ledger and fires no
failure signal — `Promise.allSettled` resolves regardless, so the
success path runs and the catch branch does not. -/
theorem c10_counterexample :
    (sendVote [] "p1" 1
        [Except.error "relay one refused", Except.error "relay two refused"]).ledger
        = [("p1", 1)] ∧
    (sendVote [] "p1" 1
        [Except.error "relay one refused", Except.error "relay two refused"]).failureSignal
        = false :=
  ⟨rfl, rfl⟩

/-- C10 (amended): the ledger is updated to the computed final sign
whenever the publish fan-out settles — which `Promise.allSettled`
guarantees for every combination of per-relay outcomes, including all
relays rejecting — and no failure signal distinct from the per-relay
errors is raised on that path. -/
theorem c10_ledger_updated_regardless (ledger : List (String × Int)) (eid : String)
    (sign : Int) (rs : List (Except String Unit)) :
    (sendVote ledger eid sign rs).ledger
        = assocSet ledger eid (sendVote ledger eid sign rs).finalSign ∧
    (sendVote ledger eid sign rs).failureSignal = false :=
  ⟨rfl, rfl⟩

end Nostr
